import Mathlib

/-!
Verification of the mental-poker cryptographic core (`protocol.py`, `deck.py`).

The secp256r1 point group is modelled as an abstract additive commutative
group `P` (the real curve group is cyclic of prime order `n`, so it is an
instance).  Python's `point * scalar` becomes `scalar • point` (ℕ-scalar
multiplication).  The two Fiat–Shamir hashes — HMAC-SHA256 with the fixed
key `HMAC_KEY` over a decimal-ascii concatenation of point coordinates,
parsed as a hexadecimal integer — are abstracted as function parameters
(`Hd` for the DLEQ transcript `(gr, hr, gx, hx)`, `H` for the shuffle
transcript `(deck, shuffled_deck, c)`); the prover and the verifier use the
same function, which is all the claims below depend on.  Outputs of
`secrets.randbelow` are passed in as explicit arguments or streams.
Python list indexing `l[i]` is modelled by `List.getD l i default`; every
theorem below only exercises it at indices where the source code cannot
raise `IndexError`.
-/

set_option linter.unusedSectionVars false
set_option linter.unusedVariables false

namespace MentalPoker

/-- Order of the secp256r1 (NIST P-256) subgroup, `curve.field.n` of the
tinyec curve registry entry used by `deck.py`. -/
def p256_n : ℕ :=
  115792089210356248762697446949407573529996955224135760342422259061068512044369

/-- Cut-and-choose round count, protocol.py line 6. -/
def SHUFFLE_SECURITY_PARAM : ℕ := 5

section Defs

variable {P : Type} [AddCommGroup P] [DecidableEq P]

/-- Embedding of `gen_nizk_dleq` (protocol.py lines 10–37).  The `curve`
argument of the source is only used to sample `r = secrets.randbelow(curve.field.n)`;
the sampled `r` is passed in explicitly here.  `Hd` abstracts the challenge
hash over `(gr, hr, gx, hx)`.  Note `t = r + c * x` over ℕ: as in the
source, no reduction mod the group order is performed. -/
def gen_nizk_dleq (Hd : P → P → P → P → ℕ) (g gx h hx : P) (x r : ℕ) : ℕ × ℕ :=
  let gr := r • g
  let hr := r • h
  let c := Hd gr hr gx hx
  (r, r + c * x)

/-- Embedding of `verify_nizk_dleq` (protocol.py lines 40–66): recompute
`gr`, `hr` and the challenge `c`, then check `t•g = gr + c•gx` and
`t•h = hr + c•hx`. -/
def verify_nizk_dleq (Hd : P → P → P → P → ℕ) (g gx h hx : P) (r t : ℕ) : Bool :=
  let gr := r • g
  let hr := r • h
  let c := Hd gr hr gx hx
  decide (t • g = gr + c • gx) && decide (t • h = hr + c • hx)

/-- Embedding of `Deck.prepare_card` (deck.py lines 14–25) acting on the
53-slot card list: if slot `idx` is `None` it becomes `point`, otherwise
the elliptic-curve sum of the old value and `point`. -/
def prepare_card (cards : List (Option P)) (point : P) (idx : ℕ) : List (Option P) :=
  match cards.getD idx none with
  | none => cards.set idx (some point)
  | some q => cards.set idx (some (q + point))

/-- One iteration of the Fisher–Yates loop body: `s[i], s[j] = s[j], s[i]`. -/
def swapAt (s : List ℕ) (i j : ℕ) : List ℕ :=
  (s.set i (s.getD j 0)).set j (s.getD i 0)

/-- The Fisher–Yates loop of `fisher_yates_shuffle` (protocol.py lines
88–101): at position `i` the CSPRNG draw is `rand i` (the source draws
`secrets.randbelow(len(s) - i)`) and the element at `i` is swapped with the
one at `rand i + i`.  `fuel` counts the remaining iterations. -/
def fy_go (rand : ℕ → ℕ) : List ℕ → ℕ → ℕ → List ℕ
  | s, _, 0 => s
  | s, i, fuel + 1 => fy_go rand (swapAt s i (rand i + i)) (i + 1) fuel

/-- Embedding of `fisher_yates_shuffle`: `len(s) - 1` loop iterations
starting at `i = 0`. -/
def fisher_yates_shuffle (s : List ℕ) (rand : ℕ → ℕ) : List ℕ :=
  fy_go rand s 0 (s.length - 1)

/-- Embedding of `apply_shuffle` (protocol.py lines 123–137):
`shuffled_deck.cards[i] = deck.cards[shuffle[i]]` for `i` in `range(53)`. -/
def apply_shuffle (deck : List P) (s : List ℕ) : List P :=
  (List.range 53).map (fun i => deck.getD (s.getD i 0) 0)

/-- Embedding of `compose_shuffles` (protocol.py lines 140–151):
`[s1[idx] for idx in s2]`. -/
def compose_shuffles (s1 s2 : List ℕ) : List ℕ :=
  s2.map (fun idx => s1.getD idx 0)

/-- Embedding of `shuffle_cards` (protocol.py lines 104–120): sample a
permutation of `[1..52]` by Fisher–Yates, prepend `0`, pick the secret
multiplier `x` (here an explicit argument, drawn below the group order by
the source), and output `(x, permutation, new deck)` with
`shuffled_deck.cards[i] = deck.cards[permutation[i]] * x`. -/
def shuffle_cards (deck : List P) (rand : ℕ → ℕ) (x : ℕ) : ℕ × List ℕ × List P :=
  let p : List ℕ := 0 :: fisher_yates_shuffle (List.range' 1 52) rand
  (x, p, (List.range 53).map (fun i => x • deck.getD (p.getD i 0) 0))

/-- One iteration of the proving loop of `gen_nizk_shuffle` (protocol.py
lines 166–184): re-shuffle the already-shuffled deck with fresh
randomness `rnd`, derive the challenge bit `e` from the hash of
`(deck, shuffled, c)`, and reveal either `(c, y, p')` or
`(c, x*y, compose_shuffles p p')`. -/
def gen_shuffle_round (H : List P → List P → List P → ℕ) (deck shuffled : List P)
    (p : List ℕ) (x : ℕ) (rnd : (ℕ → ℕ) × ℕ) : List P × ℕ × List ℕ :=
  let t := shuffle_cards shuffled rnd.1 rnd.2
  let e := H deck shuffled t.2.2 % 2
  if e = 0 then (t.2.2, t.1, t.2.1) else (t.2.2, x * t.1, compose_shuffles p t.2.1)

/-- Embedding of `gen_nizk_shuffle` (protocol.py lines 154–185).
`rand0`/`x` drive the initial `shuffle_cards`; `rnds i` supplies the
randomness of round `i` of the cut-and-choose loop.  Returns
`(x, permutation, shuffled deck, transcript)`. -/
def gen_nizk_shuffle (H : List P → List P → List P → ℕ) (deck : List P)
    (rand0 : ℕ → ℕ) (x : ℕ) (rnds : ℕ → (ℕ → ℕ) × ℕ) :
    ℕ × List ℕ × List P × List (List P × ℕ × List ℕ) :=
  let s := shuffle_cards deck rand0 x
  (s.1, s.2.1, s.2.2,
    (List.range SHUFFLE_SECURITY_PARAM).map
      (fun i => gen_shuffle_round H deck s.2.2 s.2.1 x (rnds i)))

/-- One round of `verify_nizk_shuffle` (protocol.py lines 200–219):
recompute the challenge bit from `(deck, shuffled_deck, c)`, rebuild
`ds.cards[j] = shuffled_deck.cards[j] * y` (challenge 0) or
`deck.cards[j] * y` (challenge 1), apply the disclosed permutation, and
compare against `c` slot by slot. -/
def verify_round (H : List P → List P → List P → ℕ) (deck shuffled : List P)
    (ent : List P × ℕ × List ℕ) : Bool :=
  let e := H deck shuffled ent.1 % 2
  let ds : List P := (List.range 53).map
    (fun j => if e = 0 then ent.2.1 • shuffled.getD j 0 else ent.2.1 • deck.getD j 0)
  let ds2 := apply_shuffle ds ent.2.2
  (List.range 53).all (fun j => decide (ds2.getD j 0 = ent.1.getD j 0))

/-- Embedding of `verify_nizk_shuffle` (protocol.py lines 188–220): the
loop reads `m[i]` for `i` in `range(SHUFFLE_SECURITY_PARAM)` and returns
`False` on the first failing round. -/
def verify_nizk_shuffle (H : List P → List P → List P → ℕ) (deck shuffled : List P)
    (m : List (List P × ℕ × List ℕ)) : Bool :=
  (List.range SHUFFLE_SECURITY_PARAM).all
    (fun i => verify_round H deck shuffled (m.getD i ([], 0, [])))

/-- Transcript with the round-0 and round-1 entries exchanged. -/
def swap_rounds01 (m : List (List P × ℕ × List ℕ)) : List (List P × ℕ × List ℕ) :=
  (m.set 0 (m.getD 1 ([], 0, []))).set 1 (m.getD 0 ([], 0, []))

end Defs

/-- Concrete placeholder for the shuffle challenge hash over `P = ℤ`,
used to instantiate universally quantified results at explicit inputs. -/
def cH : List ℤ → List ℤ → List ℤ → ℕ := fun _ _ _ => 0

/-- Concrete fully-populated 53-slot deck over `P = ℤ`. -/
def cDeck : List ℤ := (List.range 53).map (fun i => (i : ℤ))

/-- Concrete per-round CSPRNG streams and scalars for the shuffle prover. -/
def cRnds : ℕ → (ℕ → ℕ) × ℕ := fun _ => (fun _ => 0, 1)

/-- Concrete placeholder for the DLEQ challenge hash over `P = ℤ`. -/
def cHd0 : ℤ → ℤ → ℤ → ℤ → ℕ := fun _ _ _ _ => 0

/-- Concrete placeholder for the DLEQ challenge hash over the order-`n`
cyclic group `ZMod p256_n` (the discrete-log model of the P-256 group). -/
def cHdZ : ZMod p256_n → ZMod p256_n → ZMod p256_n → ZMod p256_n → ℕ :=
  fun _ _ _ _ => 0

section ListLemmas

variable {β : Type}

theorem getD_of_le {l : List β} {i : ℕ} (h : l.length ≤ i) (d : β) : l.getD i d = d := by
  rw [List.getD_eq_getElem?_getD, List.getElem?_eq_none h]
  rfl

theorem getD_lt {l : List β} {i : ℕ} (h : i < l.length) (d : β) : l.getD i d = l[i] := by
  rw [List.getD_eq_getElem?_getD, List.getElem?_eq_getElem h]
  rfl

theorem getD_map_range (f : ℕ → β) (d : β) {i n : ℕ} (h : i < n) :
    ((List.range n).map f).getD i d = f i := by
  rw [List.getD_eq_getElem?_getD, List.getElem?_map, List.getElem?_range h]
  rfl

theorem getD_map_lt {γ : Type} (f : γ → β) (d : β) (d' : γ) {l : List γ} {i : ℕ}
    (h : i < l.length) : (l.map f).getD i d = f (l.getD i d') := by
  rw [List.getD_eq_getElem?_getD, List.getElem?_map, List.getElem?_eq_getElem h,
    getD_lt h]
  rfl

theorem map_getD_range (l : List β) (d : β) {n : ℕ} (h : l.length = n) :
    (List.range n).map (fun i => l.getD i d) = l := by
  apply List.ext_getElem
  · simp [h]
  · intro i h1 h2
    rw [List.getElem_map, List.getElem_range, getD_lt h2]

end ListLemmas

section DleqTheorems

variable {P : Type} [AddCommGroup P] [DecidableEq P]

/-- Honest DLEQ transcripts pass the first verifier equation (and by the
same algebra the second): `(r + c*x) • g = r • g + c • (x • g)`. -/
theorem dleq_key (g : P) (r c x : ℕ) : (r + c * x) • g = r • g + c • (x • g) := by
  rw [add_nsmul, Nat.mul_comm, mul_nsmul]

/-- Claim C2.  DLEQ completeness: for all scalars `x, α, β` in `[0, n)`
with `g = α•G` and `h = β•G`, and every CSPRNG value `r` sampled inside
the prover, the proof `(r, t) = gen_nizk_dleq(curve, g, x•g, h, x•h, x)`
satisfies `verify_nizk_dleq(g, x•g, h, x•h, r, t) = true`. -/
theorem dleq_completeness (Hd : P → P → P → P → ℕ) (G : P) (α β x r : ℕ)
    (hα : α < p256_n) (hβ : β < p256_n) (hx : x < p256_n) (hr : r < p256_n) :
    verify_nizk_dleq Hd (α • G) (x • α • G) (β • G) (x • β • G)
      (gen_nizk_dleq Hd (α • G) (x • α • G) (β • G) (x • β • G) x r).1
      (gen_nizk_dleq Hd (α • G) (x • α • G) (β • G) (x • β • G) x r).2 = true := by
  simp only [gen_nizk_dleq, verify_nizk_dleq, Bool.and_eq_true, decide_eq_true_eq]
  exact ⟨dleq_key (α • G) r _ x, dleq_key (β • G) r _ x⟩

/-- Witness for C2 at a concrete input over `P = ℤ`. -/
theorem dleq_completeness_witness :
    verify_nizk_dleq (fun _ _ _ _ => 11) ((2:ℕ) • (1:ℤ)) ((5:ℕ) • (2:ℕ) • (1:ℤ))
      ((3:ℕ) • (1:ℤ)) ((5:ℕ) • (3:ℕ) • (1:ℤ))
      (gen_nizk_dleq (fun _ _ _ _ => 11) ((2:ℕ) • (1:ℤ)) ((5:ℕ) • (2:ℕ) • (1:ℤ))
        ((3:ℕ) • (1:ℤ)) ((5:ℕ) • (3:ℕ) • (1:ℤ)) 5 7).1
      (gen_nizk_dleq (fun _ _ _ _ => 11) ((2:ℕ) • (1:ℤ)) ((5:ℕ) • (2:ℕ) • (1:ℤ))
        ((3:ℕ) • (1:ℤ)) ((5:ℕ) • (3:ℕ) • (1:ℤ)) 5 7).2 = true :=
  dleq_completeness (fun _ _ _ _ => 11) 1 2 3 5 7 (by decide) (by decide) (by decide)
    (by decide)

/-- Claim C7.  `gen_nizk_dleq` returns `(r, r + c * x)` over the unbounded
naturals, where `c` is the (abstracted) challenge hash of
`(r•g, r•h, gx, hx)`; no reduction mod the group order happens anywhere.
The second conjunct exhibits inputs on which `t` exceeds the group order
`p256_n`, which a reducing implementation could never produce. -/
theorem dleq_gen_unreduced (Hd : P → P → P → P → ℕ) (g gx h hx : P) (x r : ℕ) :
    gen_nizk_dleq Hd g gx h hx x r = (r, r + Hd (r • g) (r • h) gx hx * x)
    ∧ ∃ Hd' : P → P → P → P → ℕ, ∃ g' gx' h' hx' : P, ∃ x' r' : ℕ,
        p256_n < (gen_nizk_dleq Hd' g' gx' h' hx' x' r').2 := by
  refine ⟨rfl, fun _ _ _ _ => p256_n, 0, 0, 0, 0, 1, 1, ?_⟩
  simp only [gen_nizk_dleq]
  omega

end DleqTheorems

section PrepareTheorems

variable {P : Type} [AddCommGroup P]

/-- Claim C9.  `prepare_card point idx` sets slot `idx` to `point` when the
slot holds `None`, and otherwise to the elliptic-curve sum of the current
value and `point`. -/
theorem prepare_card_spec (cards : List (Option P)) (point : P) (idx : ℕ)
    (hlen : cards.length = 53) (hidx : idx < 53) :
    (cards.getD idx none = none →
      (prepare_card cards point idx).getD idx none = some point)
    ∧ ∀ q : P, cards.getD idx none = some q →
      (prepare_card cards point idx).getD idx none = some (q + point) := by
  have hl : idx < cards.length := by omega
  constructor
  · intro h
    rw [prepare_card, h, List.getD_eq_getElem?_getD, List.getElem?_set_self hl]
    rfl
  · intro q h
    rw [prepare_card, h, List.getD_eq_getElem?_getD, List.getElem?_set_self hl]
    rfl

/-- Witness for C9 at a concrete populated slot over `P = ℤ`. -/
theorem prepare_card_spec_witness :
    (prepare_card (List.replicate 53 (some (3:ℤ))) 5 7).getD 7 none = some 8 :=
  (prepare_card_spec (List.replicate 53 (some (3:ℤ))) 5 7 (by decide) (by decide)).2 3
    (by decide)

end PrepareTheorems

section ShuffleBase

variable {P : Type} [AddCommGroup P]

/-- Claim C5.  The permutation returned by `shuffle_cards` fixes slot 0 and
the output deck satisfies `shuffled[0] = x • deck[0]`. -/
theorem shuffle_preserves_base (deck : List P) (rand : ℕ → ℕ) (x : ℕ) :
    ((shuffle_cards deck rand x).2.1).getD 0 0 = 0
    ∧ ((shuffle_cards deck rand x).2.2).getD 0 0 = x • deck.getD 0 0 := by
  refine ⟨rfl, ?_⟩
  show (((List.range 53).map fun i =>
    x • deck.getD (((shuffle_cards deck rand x).2.1).getD i 0) 0).getD 0 0) = _
  rw [getD_map_range _ _ (by omega)]
  rfl

end ShuffleBase

section PermMachinery

/-- Replacing the element at a valid index `j` and consing the old one in
front is a permutation of consing the new element. -/
theorem cons_set_perm : ∀ (l : List ℕ) (j a : ℕ), j < l.length →
    (l.getD j 0 :: l.set j a).Perm (a :: l)
  | b :: t, 0, a, _ => by
    simpa using List.Perm.swap a b t
  | b :: t, j + 1, a, h => by
    have ih := cons_set_perm t j a (by simpa using h)
    have hred : (b :: t).getD (j + 1) 0 :: (b :: t).set (j + 1) a
        = t.getD j 0 :: b :: t.set j a := by
      simp
    rw [hred]
    refine (List.Perm.swap b (t.getD j 0) (t.set j a)).trans ?_
    exact (ih.cons b).trans (List.Perm.swap a b t)

/-- A Fisher–Yates swap at valid indices permutes the list. -/
theorem swapAt_perm : ∀ (s : List ℕ) (i j : ℕ), i ≤ j → j < s.length →
    (swapAt s i j).Perm s
  | [], _, _, _, h => by simp at h
  | a :: t, 0, 0, _, _ => by
    simp [swapAt]
  | a :: t, i + 1, 0, hij, _ => by omega
  | a :: t, 0, j + 1, _, h => by
    have hred : swapAt (a :: t) 0 (j + 1) = t.getD j 0 :: t.set j a := by
      simp [swapAt]
    rw [hred]
    exact cons_set_perm t j a (by simpa using h)
  | a :: t, i + 1, j + 1, hij, h => by
    have hred : swapAt (a :: t) (i + 1) (j + 1) = a :: swapAt t i j := by
      simp [swapAt]
    rw [hred]
    exact (swapAt_perm t i j (by omega) (by simpa using h)).cons a

theorem length_swapAt (s : List ℕ) (i j : ℕ) : (swapAt s i j).length = s.length := by
  simp [swapAt]

theorem fy_go_length (rand : ℕ → ℕ) :
    ∀ (fuel : ℕ) (s : List ℕ) (i : ℕ), (fy_go rand s i fuel).length = s.length
  | 0, s, i => rfl
  | fuel + 1, s, i => by
    rw [fy_go, fy_go_length rand fuel, length_swapAt]

theorem fy_go_perm (rand : ℕ → ℕ) :
    ∀ (fuel : ℕ) (s : List ℕ) (i : ℕ),
      (∀ k, k < fuel → rand (i + k) + (i + k) < s.length) →
      (fy_go rand s i fuel).Perm s
  | 0, s, i, _ => List.Perm.refl s
  | fuel + 1, s, i, hb => by
    have h0 : rand i + i < s.length := by simpa using hb 0 (Nat.succ_pos fuel)
    have hswap : (swapAt s i (rand i + i)).Perm s :=
      swapAt_perm s i (rand i + i) (Nat.le_add_left i (rand i)) h0
    have hrec : (fy_go rand (swapAt s i (rand i + i)) (i + 1) fuel).Perm
        (swapAt s i (rand i + i)) := by
      apply fy_go_perm rand fuel
      intro k hk
      rw [length_swapAt]
      have harg : i + (k + 1) = i + 1 + k := by omega
      have := hb (k + 1) (by omega)
      rwa [harg] at this
    exact hrec.trans hswap

theorem fy_go_mem (rand : ℕ → ℕ) :
    ∀ (fuel : ℕ) (s : List ℕ) (i : ℕ), (∀ a ∈ s, a < 53) →
      ∀ a ∈ fy_go rand s i fuel, a < 53
  | 0, s, i, hs => hs
  | fuel + 1, s, i, hs => by
    apply fy_go_mem rand fuel
    have hget : ∀ j : ℕ, s.getD j 0 < 53 := by
      intro j
      by_cases h : j < s.length
      · rw [getD_lt h]
        exact hs _ (List.getElem_mem h)
      · rw [getD_of_le (by omega)]
        omega
    intro a ha
    rcases List.mem_or_eq_of_mem_set ha with h1 | rfl
    · rcases List.mem_or_eq_of_mem_set h1 with h2 | rfl
      · exact hs a h2
      · exact hget _
    · exact hget _

theorem fisher_yates_perm (s : List ℕ) (rand : ℕ → ℕ)
    (hb : ∀ k, k < s.length - 1 → rand k + k < s.length) :
    (fisher_yates_shuffle s rand).Perm s := by
  apply fy_go_perm rand (s.length - 1) s 0
  intro k hk
  simpa using hb k hk

theorem range53_eq : List.range 53 = 0 :: List.range' 1 52 := by
  rw [List.range_eq_range']
  rfl

/-- The permutation produced inside `shuffle_cards` always has 53 entries. -/
theorem shuffle_perm_length {P : Type} [AddCommGroup P]
    (deck : List P) (rand : ℕ → ℕ) (x : ℕ) :
    ((shuffle_cards deck rand x).2.1).length = 53 := by
  show (0 :: fisher_yates_shuffle (List.range' 1 52) rand).length = 53
  rw [List.length_cons, fisher_yates_shuffle, fy_go_length]
  rfl

/-- Every entry of the permutation produced inside `shuffle_cards` is below 53. -/
theorem shuffle_perm_mem {P : Type} [AddCommGroup P]
    (deck : List P) (rand : ℕ → ℕ) (x : ℕ) :
    ∀ a ∈ (shuffle_cards deck rand x).2.1, a < 53 := by
  intro a ha
  rcases (List.mem_cons).1 ha with rfl | h
  · omega
  · refine fy_go_mem rand _ _ _ ?_ a h
    intro b hb
    have := List.mem_range'_1.1 hb
    omega

theorem shuffle_perm_getD_lt {P : Type} [AddCommGroup P]
    (deck : List P) (rand : ℕ → ℕ) (x : ℕ) (j : ℕ) :
    ((shuffle_cards deck rand x).2.1).getD j 0 < 53 := by
  by_cases h : j < ((shuffle_cards deck rand x).2.1).length
  · rw [getD_lt h]
    exact shuffle_perm_mem deck rand x _ (List.getElem_mem h)
  · rw [getD_of_le (by omega)]
    omega

/-- With in-range CSPRNG draws, the permutation of `shuffle_cards` is a
permutation of `{0, …, 52}`. -/
theorem shuffle_perm_perm {P : Type} [AddCommGroup P]
    (deck : List P) (rand : ℕ → ℕ) (x : ℕ)
    (hb : ∀ k, k < 51 → rand k + k < 52) :
    ((shuffle_cards deck rand x).2.1).Perm (List.range 53) := by
  have hfy : (fisher_yates_shuffle (List.range' 1 52) rand).Perm (List.range' 1 52) := by
    apply fisher_yates_perm
    intro k hk
    have hlen : (List.range' 1 52).length = 52 := by simp
    rw [hlen]
    rw [hlen] at hk
    exact hb k (by omega)
  rw [range53_eq]
  exact hfy.cons 0

end PermMachinery

section ShufflePermTheorems

variable {P : Type} [AddCommGroup P]

/-- The output deck of `shuffle_cards` is the permutation list mapped
through `fun idx => x • deck[idx]`. -/
theorem shuffle_deck_eq_map (deck : List P) (rand : ℕ → ℕ) (x : ℕ) :
    (shuffle_cards deck rand x).2.2
      = ((shuffle_cards deck rand x).2.1).map (fun idx => x • deck.getD idx 0) := by
  show (List.range 53).map (fun i =>
      x • deck.getD (((shuffle_cards deck rand x).2.1).getD i 0) 0) = _
  have h53 := shuffle_perm_length deck rand x
  calc (List.range 53).map (fun i =>
        x • deck.getD (((shuffle_cards deck rand x).2.1).getD i 0) 0)
      = ((List.range 53).map
          (fun i => ((shuffle_cards deck rand x).2.1).getD i 0)).map
          (fun idx => x • deck.getD idx 0) := by
        rw [List.map_map]
        rfl
    _ = ((shuffle_cards deck rand x).2.1).map (fun idx => x • deck.getD idx 0) := by
        rw [map_getD_range _ _ h53]

/-- Claim C4.  `shuffle_cards deck` returns `(x, π, deck')` where `π` is a
permutation of `{0, …, 52}`, `deck'[i] = x • deck[π[i]]` for every
`i < 53`, the output deck is a permutation of `x • deck` slotwise, and
consequently un-multiplying every slot of `deck'` by `x` recovers the
multiset of slots of `deck`. -/
theorem shuffle_cards_spec (deck : List P) (rand : ℕ → ℕ) (x : ℕ)
    (hdeck : deck.length = 53) (hb : ∀ k, k < 51 → rand k + k < 52) :
    ((shuffle_cards deck rand x).2.1).Perm (List.range 53)
    ∧ (∀ i, i < 53 → ((shuffle_cards deck rand x).2.2).getD i 0
        = x • deck.getD (((shuffle_cards deck rand x).2.1).getD i 0) 0)
    ∧ ((shuffle_cards deck rand x).2.2).Perm (deck.map (fun q => x • q))
    ∧ ∀ inv : P → P, (∀ q : P, inv (x • q) = q) →
        (((shuffle_cards deck rand x).2.2).map inv).Perm deck := by
  have hperm := shuffle_perm_perm deck rand x hb
  have hmapped : ((shuffle_cards deck rand x).2.2).Perm (deck.map (fun q => x • q)) := by
    rw [shuffle_deck_eq_map]
    have h1 : (((shuffle_cards deck rand x).2.1).map
        (fun idx => x • deck.getD idx 0)).Perm
        ((List.range 53).map (fun idx => x • deck.getD idx 0)) :=
      hperm.map (fun idx => x • deck.getD idx 0)
    refine h1.trans ?_
    have h2 : (List.range 53).map (fun idx => x • deck.getD idx 0)
        = ((List.range 53).map (fun idx => deck.getD idx 0)).map (fun q => x • q) := by
      rw [List.map_map]
      rfl
    rw [h2, map_getD_range _ _ hdeck]
  refine ⟨hperm, ?_, hmapped, ?_⟩
  · intro i hi
    show (((List.range 53).map fun j =>
      x • deck.getD (((shuffle_cards deck rand x).2.1).getD j 0) 0).getD i 0) = _
    rw [getD_map_range _ _ hi]
  · intro inv hinv
    have h3 : (((shuffle_cards deck rand x).2.2).map inv).Perm
        ((deck.map (fun q => x • q)).map inv) := hmapped.map inv
    refine h3.trans ?_
    rw [List.map_map]
    have h4 : deck.map (inv ∘ fun q => x • q) = deck.map id :=
      List.map_congr_left (fun a _ => hinv a)
    rw [h4, List.map_id]

/-- Witness for C4 at a concrete input: the all-zero deck over `ℤ` with the
zero CSPRNG stream and `x = 2`. -/
theorem shuffle_cards_spec_witness :
    ((shuffle_cards (List.replicate 53 (0:ℤ)) (fun _ => 0) 2).2.1).Perm
      (List.range 53) :=
  (shuffle_cards_spec (List.replicate 53 (0:ℤ)) (fun _ => 0) 2 (by simp)
    (by decide)).1

end ShufflePermTheorems

section ComposeTheorems

/-- Claim C8.  `compose_shuffles` is pointwise composition
(`compose(s1, s2)[k] = s1[s2[k]]`), and on permutations of `{0, …, 52}` it
is associative. -/
theorem compose_shuffles_spec (a b c : List ℕ)
    (ha : a.Perm (List.range 53)) (hb : b.Perm (List.range 53))
    (hc : c.Perm (List.range 53)) :
    (∀ s1 s2 : List ℕ, ∀ k, k < s2.length →
        (compose_shuffles s1 s2).getD k 0 = s1.getD (s2.getD k 0) 0)
    ∧ compose_shuffles (compose_shuffles a b) c
        = compose_shuffles a (compose_shuffles b c) := by
  constructor
  · intro s1 s2 k hk
    exact getD_map_lt _ 0 0 hk
  · have hblen : b.length = 53 := by
      rw [hb.length_eq, List.length_range]
    show c.map (fun idx => (compose_shuffles a b).getD idx 0)
        = (c.map (fun idx => b.getD idx 0)).map (fun idx => a.getD idx 0)
    rw [List.map_map]
    apply List.map_congr_left
    intro i hi
    have hilt : i < 53 := by
      have := hc.mem_iff.1 hi
      exact List.mem_range.1 this
    show (compose_shuffles a b).getD i 0 = a.getD (b.getD i 0) 0
    exact getD_map_lt _ 0 0 (by omega)

/-- Witness for C8 on the identity permutation. -/
theorem compose_shuffles_spec_witness :
    compose_shuffles (compose_shuffles (List.range 53) (List.range 53)) (List.range 53)
      = compose_shuffles (List.range 53) (compose_shuffles (List.range 53) (List.range 53)) :=
  (compose_shuffles_spec (List.range 53) (List.range 53) (List.range 53)
    (List.Perm.refl _) (List.Perm.refl _) (List.Perm.refl _)).2

end ComposeTheorems

section ShuffleNizk

variable {P : Type} [AddCommGroup P] [DecidableEq P]

/-- Unfolding equation for the deck produced by `shuffle_cards`. -/
theorem shuffle_deck_def (deck : List P) (rand : ℕ → ℕ) (x : ℕ) :
    (shuffle_cards deck rand x).2.2
      = (List.range 53).map
          (fun i => x • deck.getD (((shuffle_cards deck rand x).2.1).getD i 0) 0) := rfl

/-- Reading one slot of the deck produced by `shuffle_cards`. -/
theorem shuffle_deck_getD (deck : List P) (rand : ℕ → ℕ) (x : ℕ) {i : ℕ}
    (hi : i < 53) :
    ((shuffle_cards deck rand x).2.2).getD i 0
      = x • deck.getD (((shuffle_cards deck rand x).2.1).getD i 0) 0 := by
  conv_lhs => rw [shuffle_deck_def]
  rw [getD_map_range _ _ hi]

/-- A revealed round (challenge bit 0) of an honest shuffle proof passes
verification: the verifier rebuilds exactly the prover's re-shuffle of the
shuffled deck. -/
theorem verify_round_reveal (H : List P → List P → List P → ℕ) (deck shuf : List P)
    (rand : ℕ → ℕ) (y : ℕ)
    (he : H deck shuf (shuffle_cards shuf rand y).2.2 % 2 = 0) :
    verify_round H deck shuf
      ((shuffle_cards shuf rand y).2.2, y, (shuffle_cards shuf rand y).2.1) = true := by
  simp only [verify_round, he, reduceIte, List.all_eq_true, decide_eq_true_eq]
  intro j hj
  rw [List.mem_range] at hj
  rw [apply_shuffle, getD_map_range _ _ hj]
  have hw : ((shuffle_cards shuf rand y).2.1).getD j 0 < 53 :=
    shuffle_perm_getD_lt shuf rand y j
  rw [getD_map_range _ _ hw]
  rw [shuffle_deck_getD shuf rand y hj]

/-- A composed round (challenge bit 1) of an honest shuffle proof passes
verification: `c[j] = y • shuffled[p'[j]] = (x*y) • deck[(p ∘ p')[j]]`. -/
theorem verify_round_compose (H : List P → List P → List P → ℕ) (deck : List P)
    (rand0 : ℕ → ℕ) (x : ℕ) (rand : ℕ → ℕ) (y : ℕ)
    (he : ¬ H deck (shuffle_cards deck rand0 x).2.2
      (shuffle_cards (shuffle_cards deck rand0 x).2.2 rand y).2.2 % 2 = 0) :
    verify_round H deck (shuffle_cards deck rand0 x).2.2
      ((shuffle_cards (shuffle_cards deck rand0 x).2.2 rand y).2.2, x * y,
        compose_shuffles (shuffle_cards deck rand0 x).2.1
          (shuffle_cards (shuffle_cards deck rand0 x).2.2 rand y).2.1) = true := by
  simp only [verify_round, he, reduceIte, List.all_eq_true, decide_eq_true_eq]
  intro j hj
  rw [List.mem_range] at hj
  rw [apply_shuffle, getD_map_range _ _ hj]
  have hpplen : ((shuffle_cards (shuffle_cards deck rand0 x).2.2 rand y).2.1).length
      = 53 := shuffle_perm_length _ rand y
  have hcomp : (compose_shuffles (shuffle_cards deck rand0 x).2.1
      (shuffle_cards (shuffle_cards deck rand0 x).2.2 rand y).2.1).getD j 0
      = ((shuffle_cards deck rand0 x).2.1).getD
        (((shuffle_cards (shuffle_cards deck rand0 x).2.2 rand y).2.1).getD j 0) 0 :=
    getD_map_lt _ 0 0 (by omega)
  rw [hcomp]
  have hw : ((shuffle_cards (shuffle_cards deck rand0 x).2.2 rand y).2.1).getD j 0
      < 53 := shuffle_perm_getD_lt _ rand y j
  have hv : ((shuffle_cards deck rand0 x).2.1).getD
      (((shuffle_cards (shuffle_cards deck rand0 x).2.2 rand y).2.1).getD j 0) 0
      < 53 := shuffle_perm_getD_lt deck rand0 x _
  rw [getD_map_range _ _ hv]
  rw [shuffle_deck_getD (shuffle_cards deck rand0 x).2.2 rand y hj]
  rw [shuffle_deck_getD deck rand0 x hw]
  exact mul_nsmul _ x y

/-- Every round entry produced by the prover loop of `gen_nizk_shuffle`
passes `verify_round`. -/
theorem gen_round_complete (H : List P → List P → List P → ℕ) (deck : List P)
    (rand0 : ℕ → ℕ) (x : ℕ) (rnd : (ℕ → ℕ) × ℕ) :
    verify_round H deck (shuffle_cards deck rand0 x).2.2
      (gen_shuffle_round H deck (shuffle_cards deck rand0 x).2.2
        (shuffle_cards deck rand0 x).2.1 x rnd) = true := by
  by_cases he : H deck (shuffle_cards deck rand0 x).2.2
      (shuffle_cards (shuffle_cards deck rand0 x).2.2 rnd.1 rnd.2).2.2 % 2 = 0
  · have hgen : gen_shuffle_round H deck (shuffle_cards deck rand0 x).2.2
        (shuffle_cards deck rand0 x).2.1 x rnd
        = ((shuffle_cards (shuffle_cards deck rand0 x).2.2 rnd.1 rnd.2).2.2, rnd.2,
          (shuffle_cards (shuffle_cards deck rand0 x).2.2 rnd.1 rnd.2).2.1) := by
      simp only [gen_shuffle_round, he, reduceIte]
      rfl
    rw [hgen]
    exact verify_round_reveal H deck _ rnd.1 rnd.2 he
  · have hgen : gen_shuffle_round H deck (shuffle_cards deck rand0 x).2.2
        (shuffle_cards deck rand0 x).2.1 x rnd
        = ((shuffle_cards (shuffle_cards deck rand0 x).2.2 rnd.1 rnd.2).2.2, x * rnd.2,
          compose_shuffles (shuffle_cards deck rand0 x).2.1
            (shuffle_cards (shuffle_cards deck rand0 x).2.2 rnd.1 rnd.2).2.1) := by
      simp only [gen_shuffle_round, he, reduceIte]
      rfl
    rw [hgen]
    exact verify_round_compose H deck rand0 x rnd.1 rnd.2 he

/-- Unfolding equation for the transcript produced by `gen_nizk_shuffle`. -/
theorem gen_transcript_def (H : List P → List P → List P → ℕ) (deck : List P)
    (rand0 : ℕ → ℕ) (x : ℕ) (rnds : ℕ → (ℕ → ℕ) × ℕ) :
    (gen_nizk_shuffle H deck rand0 x rnds).2.2.2
      = (List.range SHUFFLE_SECURITY_PARAM).map
          (fun i => gen_shuffle_round H deck (shuffle_cards deck rand0 x).2.2
            (shuffle_cards deck rand0 x).2.1 x (rnds i)) := rfl

/-- Claim C1.  Shuffle completeness: for every fully-populated 53-slot deck
and every choice of CSPRNG outputs, the transcript produced by
`gen_nizk_shuffle` is accepted by `verify_nizk_shuffle` against the input
deck and the output deck. -/
theorem shuffle_completeness (H : List P → List P → List P → ℕ) (deck : List P)
    (rand0 : ℕ → ℕ) (x : ℕ) (rnds : ℕ → (ℕ → ℕ) × ℕ) (hdeck : deck.length = 53) :
    verify_nizk_shuffle H deck (gen_nizk_shuffle H deck rand0 x rnds).2.2.1
      (gen_nizk_shuffle H deck rand0 x rnds).2.2.2 = true := by
  rw [verify_nizk_shuffle, List.all_eq_true]
  intro i hi
  rw [List.mem_range] at hi
  rw [gen_transcript_def, getD_map_range _ _ hi]
  exact gen_round_complete H deck rand0 x (rnds i)

/-- Witness for C1 at a concrete deck, stream and multiplier. -/
theorem shuffle_completeness_witness :
    verify_nizk_shuffle cH cDeck (gen_nizk_shuffle cH cDeck (fun _ => 0) 2 cRnds).2.2.1
      (gen_nizk_shuffle cH cDeck (fun _ => 0) 2 cRnds).2.2.2 = true :=
  shuffle_completeness cH cDeck (fun _ => 0) 2 cRnds rfl

/-- Reading a slot of the transcript with rounds 0 and 1 exchanged. -/
theorem swap_rounds01_getD (m : List (List P × ℕ × List ℕ)) (hm : 2 ≤ m.length)
    (i : ℕ) :
    (swap_rounds01 m).getD i ([], 0, [])
      = m.getD (if i = 0 then 1 else if i = 1 then 0 else i) ([], 0, []) := by
  rcases m with _ | ⟨a, m'⟩
  · simp at hm
  rcases m' with _ | ⟨b, t⟩
  · simp at hm
  match i with
  | 0 => rfl
  | 1 => rfl
  | n + 2 => rfl

/-- Transcripts of `gen_nizk_shuffle` have exactly
`SHUFFLE_SECURITY_PARAM` rounds. -/
theorem gen_transcript_length (H : List P → List P → List P → ℕ) (deck : List P)
    (rand0 : ℕ → ℕ) (x : ℕ) (rnds : ℕ → (ℕ → ℕ) × ℕ) :
    ((gen_nizk_shuffle H deck rand0 x rnds).2.2.2).length = SHUFFLE_SECURITY_PARAM := by
  rw [gen_transcript_def, List.length_map, List.length_range]

/-- Honest shuffle transcripts still verify after their round-0 and
round-1 entries are exchanged: each round check of `verify_nizk_shuffle`
recomputes its challenge from the entry itself and never uses the round
index, so the verdict is invariant under reordering of entries. -/
theorem verify_swap01_gen (H : List P → List P → List P → ℕ) (deck : List P)
    (rand0 : ℕ → ℕ) (x : ℕ) (rnds : ℕ → (ℕ → ℕ) × ℕ) :
    verify_nizk_shuffle H deck (gen_nizk_shuffle H deck rand0 x rnds).2.2.1
      (swap_rounds01 (gen_nizk_shuffle H deck rand0 x rnds).2.2.2) = true := by
  rw [verify_nizk_shuffle, List.all_eq_true]
  intro i hi
  rw [List.mem_range] at hi
  rw [swap_rounds01_getD _ (by rw [gen_transcript_length]; decide) i]
  have hi5 : i < 5 := by
    rw [show SHUFFLE_SECURITY_PARAM = 5 from rfl] at hi
    exact hi
  have hj : (if i = 0 then 1 else if i = 1 then 0 else i) < SHUFFLE_SECURITY_PARAM := by
    rw [show SHUFFLE_SECURITY_PARAM = 5 from rfl]
    split_ifs <;> omega
  rw [gen_transcript_def, getD_map_range _ _ hj]
  exact gen_round_complete H deck rand0 x (rnds _)

end ShuffleNizk

section SwapAndPrefix

variable {P : Type} [AddCommGroup P] [DecidableEq P]

/-- Claim C3, amended.  Exchanging the round-0 and round-1 entries of an
honestly generated shuffle transcript leaves `verify_nizk_shuffle`
returning `true`, not `false`: every round check recomputes its challenge
bit from the entry's own deck `c` and never consults the round index, so
the verifier accepts any reordering of the honest entries. -/
theorem shuffle_swap01_still_verifies (H : List P → List P → List P → ℕ)
    (deck : List P) (rand0 : ℕ → ℕ) (x : ℕ) (rnds : ℕ → (ℕ → ℕ) × ℕ) :
    verify_nizk_shuffle H deck (gen_nizk_shuffle H deck rand0 x rnds).2.2.1
      (swap_rounds01 (gen_nizk_shuffle H deck rand0 x rnds).2.2.2) = true :=
  verify_swap01_gen H deck rand0 x rnds

/-- Counterexample to claim C3 as stated: at the concrete fully-populated
53-slot deck `cDeck`, with the zero CSPRNG streams, multiplier 1 and the
constant-zero challenge hash, the transcript with rounds 0 and 1 exchanged
is still accepted — the claim predicted `false`. -/
theorem shuffle_swap01_counterexample :
    verify_nizk_shuffle cH cDeck (gen_nizk_shuffle cH cDeck (fun _ => 0) 1 cRnds).2.2.1
      (swap_rounds01 (gen_nizk_shuffle cH cDeck (fun _ => 0) 1 cRnds).2.2.2) = true :=
  verify_swap01_gen cH cDeck (fun _ => 0) 1 cRnds

/-- Claim C10.  `verify_nizk_shuffle` reads only the first
`SHUFFLE_SECURITY_PARAM = 5` transcript entries: transcripts agreeing on
entries 0..4 verify identically, and appending extra rounds never changes
the verdict (in particular a verifying transcript stays verifying). -/
theorem verify_uses_first_five (H : List P → List P → List P → ℕ)
    (deck shuf : List P) (m1 m2 extra : List (List P × ℕ × List ℕ))
    (h1 : SHUFFLE_SECURITY_PARAM ≤ m1.length)
    (h12 : m1.take SHUFFLE_SECURITY_PARAM = m2.take SHUFFLE_SECURITY_PARAM) :
    verify_nizk_shuffle H deck shuf m1 = verify_nizk_shuffle H deck shuf m2
    ∧ verify_nizk_shuffle H deck shuf (m1 ++ extra)
      = verify_nizk_shuffle H deck shuf m1 := by
  have key : ∀ ma mb : List (List P × ℕ × List ℕ),
      (∀ i, i < SHUFFLE_SECURITY_PARAM →
        ma.getD i ([], 0, []) = mb.getD i ([], 0, [])) →
      verify_nizk_shuffle H deck shuf ma = verify_nizk_shuffle H deck shuf mb := by
    intro ma mb h
    rw [verify_nizk_shuffle, verify_nizk_shuffle,
      show List.range SHUFFLE_SECURITY_PARAM = [0, 1, 2, 3, 4] from rfl]
    simp only [List.all_cons, List.all_nil]
    rw [h 0 (by decide), h 1 (by decide), h 2 (by decide), h 3 (by decide),
      h 4 (by decide)]
  refine ⟨?_, ?_⟩
  · apply key
    intro i hi
    have e1 : m1.getD i ([], 0, [])
        = (m1.take SHUFFLE_SECURITY_PARAM).getD i ([], 0, []) := by
      rw [List.getD_eq_getElem?_getD, List.getD_eq_getElem?_getD, List.getElem?_take,
        if_pos hi]
    have e2 : m2.getD i ([], 0, [])
        = (m2.take SHUFFLE_SECURITY_PARAM).getD i ([], 0, []) := by
      rw [List.getD_eq_getElem?_getD, List.getD_eq_getElem?_getD, List.getElem?_take,
        if_pos hi]
    rw [e1, e2, h12]
  · apply key
    intro i hi
    rw [List.getD_eq_getElem?_getD, List.getD_eq_getElem?_getD, List.getElem?_append,
      if_pos (by omega)]

/-- Witness for C10: a 5-entry and a 6-entry transcript with equal first
five entries verify identically. -/
theorem verify_uses_first_five_witness :
    verify_nizk_shuffle cH [] []
        (List.replicate 5 (([], 0, []) : List ℤ × ℕ × List ℕ))
      = verify_nizk_shuffle cH [] []
        (List.replicate 6 (([], 0, []) : List ℤ × ℕ × List ℕ)) :=
  (verify_uses_first_five cH [] [] (List.replicate 5 ([], 0, []))
    (List.replicate 6 ([], 0, [])) [] (by decide) rfl).1

end SwapAndPrefix

section DleqTamper

/-- Claim C6, amended.  In the subgroup of order `p256_n` (`G` of additive
order `n`, as on the real curve) and with `g = α•G` not the identity
(`0 < α < n`), flipping any single bit of the response `t` of an honest
DLEQ proof — i.e. replacing `t` by `t' = t ± 2^k` — makes
`verify_nizk_dleq` return `false`.  This is the part of the claimed
soundness boundary that holds unconditionally; tampering with the hashed
components `g, gx, h, hx, r` only fails up to collision properties of
HMAC-SHA256, and for `α = β = 0` (allowed by the claim) tampering with `t`
is not detected at all (see the counterexample). -/
theorem dleq_tamper_t_fails {P : Type} [AddCommGroup P] [DecidableEq P]
    (Hd : P → P → P → P → ℕ) (G : P) (hG : addOrderOf G = p256_n)
    (α β x r k t' : ℕ) (hα0 : 0 < α) (hα : α < p256_n)
    (hflip : t' = (gen_nizk_dleq Hd (α • G) (x • α • G) (β • G) (x • β • G) x r).2 + 2 ^ k
      ∨ (gen_nizk_dleq Hd (α • G) (x • α • G) (β • G) (x • β • G) x r).2 = t' + 2 ^ k) :
    verify_nizk_dleq Hd (α • G) (x • α • G) (β • G) (x • β • G) r t' = false := by
  have hne : ∀ a b : ℕ, a = b + 2 ^ k → a • (α • G) ≠ b • (α • G) := by
    intro a b hab heq
    rw [hab, add_nsmul] at heq
    have hz : (2 ^ k) • (α • G) = 0 := add_right_eq_self.mp heq
    rw [← mul_nsmul G α (2 ^ k)] at hz
    have hdvd : p256_n ∣ α * 2 ^ k := by
      rw [← hG]
      exact addOrderOf_dvd_iff_nsmul_eq_zero.mpr hz
    have hcop : Nat.Coprime p256_n (2 ^ k) := Nat.Coprime.pow_right k (by decide)
    have hdvd2 : p256_n ∣ α := hcop.dvd_of_dvd_mul_right hdvd
    have hle := Nat.le_of_dvd hα0 hdvd2
    omega
  have hA : ¬ t' • (α • G)
      = r • (α • G)
        + Hd (r • α • G) (r • β • G) (x • α • G) (x • β • G) • (x • α • G) := by
    rw [← dleq_key (α • G) r (Hd (r • α • G) (r • β • G) (x • α • G) (x • β • G)) x]
    rcases hflip with h | h
    · exact hne t' (r + Hd (r • α • G) (r • β • G) (x • α • G) (x • β • G) * x) h
    · intro heq
      exact hne (r + Hd (r • α • G) (r • β • G) (x • α • G) (x • β • G) * x) t' h
        heq.symm
  show (decide (t' • (α • G)
      = r • (α • G)
        + Hd (r • α • G) (r • β • G) (x • α • G) (x • β • G) • (x • α • G))
    && decide (t' • (β • G)
      = r • (β • G)
        + Hd (r • α • G) (r • β • G) (x • α • G) (x • β • G) • (x • β • G))) = false
  rw [decide_eq_false hA, Bool.false_and]

/-- Witness for the amended C6 in the order-`n` cyclic group
`ZMod p256_n` (the discrete-log model of the P-256 curve group), with
`α = 1`, `β = 0`, `x = r = 0` and bit 0 of `t` flipped. -/
theorem dleq_tamper_t_fails_witness :
    verify_nizk_dleq cHdZ ((1:ℕ) • (1 : ZMod p256_n))
      ((0:ℕ) • (1:ℕ) • (1 : ZMod p256_n)) ((0:ℕ) • (1 : ZMod p256_n))
      ((0:ℕ) • (0:ℕ) • (1 : ZMod p256_n)) 0 1 = false :=
  dleq_tamper_t_fails cHdZ 1 (ZMod.addOrderOf_one p256_n) 1 0 0 0 0 1 (by decide)
    (by decide) (Or.inl (by decide))

/-- Counterexample to claim C6 as stated: the claim quantifies over all
`α, β ∈ [0, n)`, but at `α = β = 0` (so `g`, `h`, `gx`, `hx` are the
identity, which the tinyec arithmetic of the source accepts) flipping bit
0 of the honest response `t` still makes `verify_nizk_dleq` return
`true`, not `false`. -/
theorem dleq_tamper_counterexample :
    verify_nizk_dleq cHd0 ((0:ℕ) • (1:ℤ)) ((0:ℕ) • (0:ℕ) • (1:ℤ))
      ((0:ℕ) • (1:ℤ)) ((0:ℕ) • (0:ℕ) • (1:ℤ)) 0
      ((gen_nizk_dleq cHd0 ((0:ℕ) • (1:ℤ)) ((0:ℕ) • (0:ℕ) • (1:ℤ)) ((0:ℕ) • (1:ℤ))
        ((0:ℕ) • (0:ℕ) • (1:ℤ)) 0 0).2 ^^^ 2 ^ 0) = true := by
  decide

end DleqTamper

end MentalPoker
